import Mathlib

/-!
Verification of the `json-event-parser` streaming JSON codec.

The definitions below are a shallow embedding of the Rust sources
`src/lib.rs`, `src/read.rs` and `src/write.rs`:
bytes are modelled as `Nat` (`u8` values), Rust `String`/`&str` values as
`List Char`, fallible operations return `Option`/`Except`, and every stateful
operation is written as an explicit state-passing function.
-/

/-- A byte of the input or output stream (a Rust `u8` value). -/
abbrev Byte := Nat

/-- Events emitted by the parser and consumed by the serializer
(`JsonEvent` in `src/lib.rs`). -/
inductive JsonEvent where
  | string (s : List Char)
  | number (s : List Char)
  | boolean (b : Bool)
  | null
  | startArray
  | endArray
  | arrayIndex
  | startObject
  | endObject
  | objectKey (s : List Char)
  | eof
deriving DecidableEq, Repr

/-! ## UTF-8 encoding (Rust `char::encode_utf8` / `str::as_bytes`) -/

/-- UTF-8 encoding of a single Unicode scalar value, as performed by
Rust `char::encode_utf8`. -/
def encodeUtf8Char (c : Char) : List Byte :=
  let n := c.toNat
  if n < 0x80 then [n]
  else if n < 0x800 then [0xC0 + n / 64, 0x80 + n % 64]
  else if n < 0x10000 then [0xE0 + n / 4096, 0x80 + n / 64 % 64, 0x80 + n % 64]
  else [0xF0 + n / 262144, 0x80 + n / 4096 % 64, 0x80 + n / 64 % 64, 0x80 + n % 64]

/-- UTF-8 byte sequence of a Rust string (`str::as_bytes`). -/
def strBytes (s : List Char) : List Byte :=
  s.flatMap encodeUtf8Char

/-! ## Serializer (`src/write.rs`) -/

/-- Serializer stack states (`JsonState` in `src/write.rs`). -/
inductive WJsonState where
  | openArray
  | continuationArray
  | openObject
  | continuationObject
  | objectValue
deriving DecidableEq, Repr

/-- State of `LowLevelJsonSerializer` in `src/write.rs`:
the stack of open containers plus the `element_written` flag. -/
structure LowLevelJsonSerializer where
  state_stack : List WJsonState
  element_written : Bool
deriving DecidableEq, Repr

/-- `LowLevelJsonSerializer::new`. -/
def LowLevelJsonSerializer.new : LowLevelJsonSerializer :=
  { state_stack := [], element_written := false }

/-- One hexadecimal digit in upper case, as produced by the
`\u00XX` escape loop of `write_escaped_json_string`. -/
def hexDigitByte (n : Nat) : Byte :=
  if n < 10 then 0x30 + n else 0x41 + n - 10

/-- Bytes written for one character by `write_escaped_json_string`. -/
def escapeChar (c : Char) : List Byte :=
  if c = '\\' then [0x5C, 0x5C]
  else if c = '"' then [0x5C, 0x22]
  else if c.toNat < 32 then
    if c = '\x08' then [0x5C, 0x62]
    else if c = '\x0C' then [0x5C, 0x66]
    else if c = '\n' then [0x5C, 0x6E]
    else if c = '\r' then [0x5C, 0x72]
    else if c = '\t' then [0x5C, 0x74]
    else [0x5C, 0x75, hexDigitByte (c.toNat / 4096 % 16), hexDigitByte (c.toNat / 256 % 16),
          hexDigitByte (c.toNat / 16 % 16), hexDigitByte (c.toNat % 16)]
  else encodeUtf8Char c

/-- `write_escaped_json_string` in `src/write.rs`: a double quote, the
escaped characters, and a closing double quote. -/
def writeEscapedJsonString (s : List Char) : List Byte :=
  0x22 :: s.flatMap escapeChar ++ [0x22]

/-- `LowLevelJsonSerializer::before_value`: returns the new state, the bytes
written, and an error message if the event is rejected. -/
def LowLevelJsonSerializer.before_value (w : LowLevelJsonSerializer) :
    LowLevelJsonSerializer × List Byte × Option String :=
  match w.state_stack with
  | .openArray :: rest =>
      ({ w with state_stack := .continuationArray :: rest }, [], none)
  | .continuationArray :: rest =>
      ({ w with state_stack := .continuationArray :: rest }, [0x2C], none)
  | .openObject :: rest =>
      ({ w with state_stack := .openObject :: rest }, [],
        some "Object key expected, string found")
  | .continuationObject :: rest =>
      ({ w with state_stack := .continuationObject :: rest }, [],
        some "Object key expected, string found")
  | .objectValue :: rest =>
      ({ w with state_stack := rest }, [], none)
  | [] =>
      if w.element_written then
        (w, [], some "A root JSON value has already been written")
      else
        ({ w with element_written := true }, [], none)

/-- `LowLevelJsonSerializer::serialize_event`: returns the new state, the
bytes written to the output, and an error message if the event is rejected. -/
def LowLevelJsonSerializer.serialize_event (w : LowLevelJsonSerializer)
    (event : JsonEvent) : LowLevelJsonSerializer × List Byte × Option String :=
  match event with
  | .string s =>
      match w.before_value with
      | (w', out, none) => (w', out ++ writeEscapedJsonString s, none)
      | (w', out, some e) => (w', out, some e)
  | .number s =>
      match w.before_value with
      | (w', out, none) => (w', out ++ strBytes s, none)
      | (w', out, some e) => (w', out, some e)
  | .boolean b =>
      match w.before_value with
      | (w', out, none) =>
          (w', out ++ (if b then [0x74, 0x72, 0x75, 0x65] else [0x66, 0x61, 0x6C, 0x73, 0x65]),
            none)
      | (w', out, some e) => (w', out, some e)
  | .null =>
      match w.before_value with
      | (w', out, none) => (w', out ++ [0x6E, 0x75, 0x6C, 0x6C], none)
      | (w', out, some e) => (w', out, some e)
  | .startArray =>
      match w.before_value with
      | (w', out, none) =>
          ({ w' with state_stack := .openArray :: w'.state_stack }, out ++ [0x5B], none)
      | (w', out, some e) => (w', out, some e)
  | .endArray =>
      match w.state_stack with
      | .openArray :: rest => ({ w with state_stack := rest }, [0x5D], none)
      | .continuationArray :: rest => ({ w with state_stack := rest }, [0x5D], none)
      | _ :: _ => (w, [], some "Closing a not opened array")
      | [] => (w, [], some "Closing a not opened array")
  | .startObject =>
      match w.before_value with
      | (w', out, none) =>
          ({ w' with state_stack := .openObject :: w'.state_stack }, out ++ [0x7B], none)
      | (w', out, some e) => (w', out, some e)
  | .endObject =>
      match w.state_stack with
      | .openObject :: rest => ({ w with state_stack := rest }, [0x7D], none)
      | .continuationObject :: rest => ({ w with state_stack := rest }, [0x7D], none)
      | _ :: _ => (w, [], some "Closing a not opened object")
      | [] => (w, [], some "Closing a not opened object")
  | .arrayIndex => (w, [], none)
  | .objectKey key =>
      match w.state_stack with
      | .openObject :: rest =>
          ({ w with state_stack := .objectValue :: .continuationObject :: rest },
            writeEscapedJsonString key ++ [0x3A], none)
      | .continuationObject :: rest =>
          ({ w with state_stack := .objectValue :: .continuationObject :: rest },
            0x2C :: writeEscapedJsonString key ++ [0x3A], none)
      | _ => (w, [], some "Trying to write an object key in an not object")
  | .eof => (w, [], some "EOF is not allowed in JSON writer")

/-- `LowLevelJsonSerializer::validate_eof` (used by `finish`). -/
def LowLevelJsonSerializer.validate_eof (w : LowLevelJsonSerializer) : Option String :=
  if w.state_stack ≠ [] then
    some "The written JSON is not balanced: an object or an array has not been closed"
  else if !w.element_written then
    some "A JSON file can't be empty"
  else
    none

/-- Serializing a list of events in order, accumulating the output bytes;
the first rejected event aborts with its error message
(mirrors driving `serialize_event` in a loop with `?`). -/
def serializeEvents (w : LowLevelJsonSerializer) (out : List Byte) :
    List JsonEvent → LowLevelJsonSerializer × List Byte × Option String
  | [] => (w, out, none)
  | e :: rest =>
      match w.serialize_event e with
      | (w', bytes, none) => serializeEvents w' (out ++ bytes) rest
      | (w', bytes, some msg) => (w', out ++ bytes, some msg)

/-- Events that start a JSON value (string, number, boolean, null, or the
opening of an array or object). -/
def isValueStart : JsonEvent → Bool
  | .string _ => true
  | .number _ => true
  | .boolean _ => true
  | .null => true
  | .startArray => true
  | .startObject => true
  | _ => false

/-- C7: the serializer enforces exactly one balanced root value: a
value-starting event serialized at an empty state stack after a root value
has been written is rejected (leaving the state unchanged and writing
nothing), and `validate_eof` (used by `finish`) succeeds exactly when the
state stack is empty and a root value has been written. -/
theorem serializer_enforces_single_balanced_root
    (w : LowLevelJsonSerializer) (e : JsonEvent) :
    (w.state_stack = [] → w.element_written = true → isValueStart e = true →
      w.serialize_event e = (w, [], some "A root JSON value has already been written"))
    ∧ (w.validate_eof = none ↔ (w.state_stack = [] ∧ w.element_written = true)) := by
  constructor
  · intro h1 h2 h3
    cases e <;> simp [isValueStart] at h3 <;>
      simp [LowLevelJsonSerializer.serialize_event, LowLevelJsonSerializer.before_value, h1, h2]
  · unfold LowLevelJsonSerializer.validate_eof
    rcases w with ⟨stack, written⟩
    cases stack <;> cases written <;> simp

/-- Witness for C7 at a concrete serializer state: with an empty stack and
`element_written = true`, a second `Null` root value is rejected, and
`validate_eof` succeeds there. -/
theorem serializer_enforces_single_balanced_root_witness :
    LowLevelJsonSerializer.serialize_event ⟨[], true⟩ .null =
      (⟨[], true⟩, [], some "A root JSON value has already been written")
    ∧ LowLevelJsonSerializer.validate_eof ⟨[], true⟩ = none :=
  ⟨(serializer_enforces_single_balanced_root ⟨[], true⟩ .null).1 rfl rfl rfl,
   (serializer_enforces_single_balanced_root ⟨[], true⟩ .null).2.2 ⟨rfl, rfl⟩⟩

/-- C9: for every serializer state, serializing the `ArrayIndex` event
returns `Ok`, writes no bytes, and leaves the state stack and the
`element_written` flag unchanged. -/
theorem serialize_arrayIndex_is_noop (w : LowLevelJsonSerializer) :
    w.serialize_event .arrayIndex = (w, [], none) := rfl

/-- C10: when `serialize_event` rejects an `EndArray` or `EndObject` event
because the top of the state stack is absent or of the wrong kind, it
returns an error while leaving the whole serializer state exactly as it was
and writing no bytes. -/
theorem serialize_end_mismatch_preserves_state (w : LowLevelJsonSerializer) :
    ((∀ rest, w.state_stack ≠ .openArray :: rest ∧ w.state_stack ≠ .continuationArray :: rest) →
      w.serialize_event .endArray = (w, [], some "Closing a not opened array"))
    ∧ ((∀ rest, w.state_stack ≠ .openObject :: rest ∧ w.state_stack ≠ .continuationObject :: rest) →
      w.serialize_event .endObject = (w, [], some "Closing a not opened object")) := by
  constructor
  · intro h
    rcases hs : w.state_stack with _ | ⟨s, rest⟩
    · simp [LowLevelJsonSerializer.serialize_event, hs]
    · rcases (h rest) with ⟨h1, h2⟩
      rw [hs] at h1 h2
      cases s <;> simp_all [LowLevelJsonSerializer.serialize_event, hs]
  · intro h
    rcases hs : w.state_stack with _ | ⟨s, rest⟩
    · simp [LowLevelJsonSerializer.serialize_event, hs]
    · rcases (h rest) with ⟨h1, h2⟩
      rw [hs] at h1 h2
      cases s <;> simp_all [LowLevelJsonSerializer.serialize_event, hs]

/-- Witness for C10 at a concrete state: with `ObjectValue` on top of the
stack, both `EndArray` and `EndObject` are rejected without changing the
state or writing bytes. -/
theorem serialize_end_mismatch_preserves_state_witness :
    LowLevelJsonSerializer.serialize_event ⟨[.objectValue], false⟩ .endArray =
      (⟨[.objectValue], false⟩, [], some "Closing a not opened array")
    ∧ LowLevelJsonSerializer.serialize_event ⟨[.objectValue], false⟩ .endObject =
      (⟨[.objectValue], false⟩, [], some "Closing a not opened object") :=
  ⟨(serialize_end_mismatch_preserves_state ⟨[.objectValue], false⟩).1 (by intro rest; exact ⟨by simp, by simp⟩),
   (serialize_end_mismatch_preserves_state ⟨[.objectValue], false⟩).2 (by intro rest; exact ⟨by simp, by simp⟩)⟩

/-! ## Formatting helpers (Rust `format!` with `{}` and `{:X}`) -/

/-- Decimal digits of a natural number (helper for `natDecimal`). -/
def natDecimalAux : Nat → List Char → List Char
  | n, acc =>
    if h : n < 10 then Char.ofNat (48 + n) :: acc
    else natDecimalAux (n / 10) (Char.ofNat (48 + n % 10) :: acc)
termination_by n => n
decreasing_by omega

/-- Decimal rendering of a natural number, as Rust `{}` formatting. -/
def natDecimal (n : Nat) : String :=
  String.mk (natDecimalAux n [])

/-- One upper-case hexadecimal digit. -/
def hexCharOf (n : Nat) : Char :=
  if n < 10 then Char.ofNat (48 + n) else Char.ofNat (55 + n)

/-- Upper-case hexadecimal digits of a natural number (helper for `natHex`). -/
def natHexAux : Nat → List Char → List Char
  | n, acc =>
    if h : n < 16 then hexCharOf n :: acc
    else natHexAux (n / 16) (hexCharOf (n % 16) :: acc)
termination_by n => n
decreasing_by omega

/-- Upper-case hexadecimal rendering of a natural number, as Rust `{:X}`. -/
def natHex (n : Nat) : String :=
  String.mk (natHexAux n [])

/-- A character wrapped in single quotes, as Rust `'{}'` formatting. -/
def squote (c : Char) : String :=
  String.mk ['\x27', c, '\x27']

/-! ## UTF-8 decoding (Rust `str::from_utf8`, `String::from_utf8_lossy`) -/

/-- Result of decoding one UTF-8 sequence at the head of a byte list:
a decoded character with its byte length, an invalid sequence of a given
length, or an incomplete sequence at the end of the input. -/
inductive Utf8Step where
  | ok (c : Char) (len : Nat)
  | invalid (len : Nat)
  | incomplete
deriving DecidableEq, Repr

/-- Decode one UTF-8 sequence at the head of a byte list, with the same
validation ranges and error lengths as Rust's `str::from_utf8`. -/
def utf8Step : List Byte → Utf8Step
  | [] => .incomplete
  | b :: rest =>
    if b < 0x80 then .ok (Char.ofNat b) 1
    else if b < 0xC2 then .invalid 1
    else if b < 0xE0 then
      match rest with
      | [] => .incomplete
      | b1 :: _ =>
        if 0x80 ≤ b1 ∧ b1 ≤ 0xBF then .ok (Char.ofNat ((b - 0xC0) * 64 + (b1 - 0x80))) 2
        else .invalid 1
    else if b < 0xF0 then
      match rest with
      | [] => .incomplete
      | b1 :: rest1 =>
        if (if b = 0xE0 then 0xA0 else 0x80) ≤ b1 ∧ b1 ≤ (if b = 0xED then 0x9F else 0xBF) then
          match rest1 with
          | [] => .incomplete
          | b2 :: _ =>
            if 0x80 ≤ b2 ∧ b2 ≤ 0xBF then
              .ok (Char.ofNat ((b - 0xE0) * 4096 + (b1 - 0x80) * 64 + (b2 - 0x80))) 3
            else .invalid 2
        else .invalid 1
    else if b < 0xF5 then
      match rest with
      | [] => .incomplete
      | b1 :: rest1 =>
        if (if b = 0xF0 then 0x90 else 0x80) ≤ b1 ∧ b1 ≤ (if b = 0xF4 then 0x8F else 0xBF) then
          match rest1 with
          | [] => .incomplete
          | b2 :: rest2 =>
            if 0x80 ≤ b2 ∧ b2 ≤ 0xBF then
              match rest2 with
              | [] => .incomplete
              | b3 :: _ =>
                if 0x80 ≤ b3 ∧ b3 ≤ 0xBF then
                  .ok (Char.ofNat
                    ((b - 0xF0) * 262144 + (b1 - 0x80) * 4096 + (b2 - 0x80) * 64 + (b3 - 0x80))) 4
                else .invalid 3
            else .invalid 2
        else .invalid 1
    else .invalid 1

set_option maxHeartbeats 1000000 in
theorem utf8Step_ok_bounds {l : List Byte} {c : Char} {len : Nat}
    (h : utf8Step l = .ok c len) : 1 ≤ len ∧ len ≤ l.length := by
  rcases l with _ | ⟨b, _ | ⟨b1, _ | ⟨b2, _ | ⟨b3, rest⟩⟩⟩⟩ <;>
    simp only [utf8Step] at h <;>
    (try split_ifs at h) <;>
    first
      | exact Utf8Step.noConfusion h
      | (injection h with h1 h2; subst h2;
         simp only [List.length_cons, List.length_nil]; omega)

set_option maxHeartbeats 1000000 in
theorem utf8Step_invalid_bounds {l : List Byte} {len : Nat}
    (h : utf8Step l = .invalid len) : 1 ≤ len ∧ len ≤ l.length := by
  rcases l with _ | ⟨b, _ | ⟨b1, _ | ⟨b2, _ | ⟨b3, rest⟩⟩⟩⟩ <;>
    simp only [utf8Step] at h <;>
    (try split_ifs at h) <;>
    first
      | exact Utf8Step.noConfusion h
      | (injection h with h1;  subst h1;
         simp only [List.length_cons, List.length_nil]; omega)

/-- `str::from_utf8`: either the decoded characters or the pair
(`valid_up_to`, `error_len`) of the first invalid position. -/
def fromUtf8Go (l : List Byte) (idx : Nat) (acc : List Char) :
    Except (Nat × Option Nat) (List Char) :=
  if hl : l = [] then .ok acc.reverse
  else
    match h : utf8Step l with
    | .ok c len => fromUtf8Go (l.drop len) (idx + len) (c :: acc)
    | .invalid len => .error (idx, some len)
    | .incomplete => .error (idx, none)
termination_by l.length
decreasing_by
  have hb := utf8Step_ok_bounds h
  have hl2 : 0 < l.length := List.length_pos.mpr hl
  simp only [List.length_drop]
  omega

/-- `str::from_utf8` on a byte list. -/
def fromUtf8 (l : List Byte) : Except (Nat × Option Nat) (List Char) :=
  fromUtf8Go l 0 []

/-- `String::from_utf8_lossy`: invalid sequences are replaced by U+FFFD. -/
def fromUtf8Lossy (l : List Byte) : List Char :=
  if hl : l = [] then []
  else
    match h : utf8Step l with
    | .ok c len => c :: fromUtf8Lossy (l.drop len)
    | .invalid len => '\uFFFD' :: fromUtf8Lossy (l.drop len)
    | .incomplete => ['\uFFFD']
termination_by l.length
decreasing_by
  · have hb := utf8Step_ok_bounds h
    have hl2 : 0 < l.length := List.length_pos.mpr hl
    simp only [List.length_drop]
    omega
  · have hb := utf8Step_invalid_bounds h
    have hl2 : 0 < l.length := List.length_pos.mpr hl
    simp only [List.length_drop]
    omega

/-- The `Display` text of Rust's `Utf8Error`, as interpolated into the
`"Invalid UTF-8: {e}"` message of `JsonLexer::decode_utf8`. -/
def utf8ErrorMessage (validUpTo : Nat) (errorLen : Option Nat) : String :=
  match errorLen with
  | some n =>
      "invalid utf-8 sequence of " ++ natDecimal n ++ " bytes from index " ++ natDecimal validUpTo
  | none => "incomplete utf-8 byte sequence from index " ++ natDecimal validUpTo

/-! ## Lexer (`src/read.rs`) -/

/-- A position in the text: `line`, `column` and byte `offset`, all from 0
(`TextPosition` in `src/read.rs`). -/
structure TextPosition where
  line : Nat
  column : Nat
  offset : Nat
deriving DecidableEq, Repr

/-- An error in the syntax of the parsed file: a `location` range (here as
two fields) and a message (`SyntaxError` in `src/read.rs`). -/
structure SyntaxError where
  location_start : TextPosition
  location_end : TextPosition
  message : String
deriving DecidableEq, Repr

/-- Tokens at the lexer / state-machine boundary (`JsonToken` in
`src/read.rs`). -/
inductive JsonToken where
  | openingSquareBracket
  | closingSquareBracket
  | openingCurlyBracket
  | closingCurlyBracket
  | comma
  | colon
  | string (s : List Char)
  | number (s : List Char)
  | true
  | false
  | null
  | eof
deriving DecidableEq, Repr

/-- Lexer state (`JsonLexer` in `src/read.rs`): file position counters and
the `is_start` flag used for BOM handling. -/
structure JsonLexer where
  file_offset : Nat
  file_line : Nat
  file_start_of_last_line : Nat
  file_start_of_last_token : Nat
  is_start : Bool
deriving DecidableEq, Repr

/-- `JsonLexer::syntax_error`: builds a `SyntaxError` from a byte range,
clamping the start to the beginning of the current line. -/
def JsonLexer.mkSyntaxError (lx : JsonLexer) (startOff endOff : Nat) (message : String) :
    SyntaxError :=
  let s := max startOff lx.file_start_of_last_line
  { location_start :=
      { line := lx.file_line, column := s - lx.file_start_of_last_line, offset := s },
    location_end :=
      { line := lx.file_line, column := endOff - lx.file_start_of_last_line, offset := endOff },
    message := message }

/-- `JsonLexer::decode_utf8`: decode raw string bytes; on invalid UTF-8 the
lossily decoded text is returned together with a syntax error at the first
undecodable position. -/
def JsonLexer.decode_utf8 (lx : JsonLexer) (input_buffer : List Byte) (start_position : Nat) :
    List Char × Option SyntaxError :=
  match fromUtf8 input_buffer with
  | .ok s => (s, none)
  | .error (validUpTo, errorLen) =>
      (fromUtf8Lossy input_buffer,
        some (lx.mkSyntaxError (start_position + validUpTo) (start_position + validUpTo + 1)
          ("Invalid UTF-8: " ++ utf8ErrorMessage validUpTo errorLen)))

/-- `read_hexa_char` in `src/read.rs`, with the accumulator made explicit. -/
def readHexaCharGo : List Byte → Nat → Except String Nat
  | [], value => .ok value
  | c :: rest, value =>
    if 0x30 ≤ c ∧ c ≤ 0x39 then readHexaCharGo rest (value * 16 + (c - 0x30))
    else if 0x61 ≤ c ∧ c ≤ 0x66 then readHexaCharGo rest (value * 16 + (c - 0x61 + 10))
    else if 0x41 ≤ c ∧ c ≤ 0x46 then readHexaCharGo rest (value * 16 + (c - 0x41 + 10))
    else .error ("Unexpected character in a unicode escape: " ++ squote (Char.ofNat c))

/-- `read_hexa_char` in `src/read.rs`. -/
def read_hexa_char (input : List Byte) : Except String Nat :=
  readHexaCharGo input 0

/-- ASCII digit test (`u8::is_ascii_digit`). -/
def isAsciiDigit (c : Byte) : Bool :=
  0x30 ≤ c && c ≤ 0x39

/-- ASCII alphabetic test (`u8::is_ascii_alphabetic`). -/
def isAsciiAlphabetic (c : Byte) : Bool :=
  (0x41 ≤ c && c ≤ 0x5A) || (0x61 ≤ c && c ≤ 0x7A)

/-- `read_digits` in `src/read.rs`: number of leading ASCII digits, or
`none` when the digits may continue past the end of a non-final buffer. -/
def read_digits (input_buffer : List Byte) (is_ending : Bool) : Option Nat :=
  let count := (input_buffer.takeWhile isAsciiDigit).length
  if count = input_buffer.length ∧ !is_ending then none else some count

/-- Rust `char::from_u32`: some scalar value unless a surrogate or out of
range. -/
def charFromU32 (n : Nat) : Option Char :=
  if n < 0xD800 ∨ (0xDFFF < n ∧ n < 0x110000) then some (Char.ofNat n) else none

/-- Rust `&[u8]::get(a..b)`: the slice when the range is in bounds. -/
def getRange (l : List Byte) (a b : Nat) : Option (List Byte) :=
  if a ≤ b ∧ b ≤ l.length then some ((l.drop a).take (b - a)) else none

/-- ASCII bytes put back into a Rust string
(`str::from_utf8(..).unwrap()` on ASCII input). -/
def asciiChars (l : List Byte) : List Char :=
  l.map Char.ofNat

/-- `JsonLexer::read_constant`: recognises `true` / `false` / `null`.
Returns the updated lexer and the token or error; `none` means more bytes
are needed. -/
def JsonLexer.read_constant (lx : JsonLexer) (input_buffer : List Byte) (is_ending : Bool)
    (expected : List Byte) (value : JsonToken) :
    Option (JsonLexer × Except SyntaxError JsonToken) :=
  match getRange input_buffer 0 expected.length with
  | none => none
  | some pre =>
    if pre = expected then
      some ({ lx with file_offset := lx.file_offset + expected.length }, .ok value)
    else
      let ascii_chars := (input_buffer.takeWhile isAsciiAlphabetic).length
      if ascii_chars = input_buffer.length ∧ !is_ending then none
      else
        let read := max 1 ascii_chars
        let start_offset := lx.file_offset
        let lx := { lx with file_offset := lx.file_offset + read }
        some (lx, .error (lx.mkSyntaxError start_offset lx.file_offset
          (String.mk (asciiChars expected) ++ " expected")))

/-- The integer-part stage of `JsonLexer::read_number`: `some none` marks a
leading character that is not a digit, `some (some nbo)` the offset after
the integer part. -/
def numberIntPart (input_buffer : List Byte) (is_ending : Bool) (nbo0 : Nat) (c1 : Byte) :
    Option (Option Nat) :=
  if c1 = 0x30 then some (some (nbo0 + 1))
  else if 0x31 ≤ c1 ∧ c1 ≤ 0x39 then
    match read_digits (input_buffer.drop (nbo0 + 1)) is_ending with
    | none => none
    | some k => some (some (nbo0 + 1 + k))
  else some none

/-- The fractional-part stage of `JsonLexer::read_number`. -/
def numberDotStep (lx : JsonLexer) (input_buffer : List Byte) (is_ending : Bool) (nbo1 : Nat) :
    Option (Except (JsonLexer × SyntaxError) Nat) :=
  match input_buffer.get? nbo1 with
  | none => if is_ending then some (.ok nbo1) else none
  | some c =>
    if c = 0x2E then
      match input_buffer.get? (nbo1 + 1) with
      | none => none
      | some d =>
        if isAsciiDigit d then
          match read_digits (input_buffer.drop (nbo1 + 2)) is_ending with
          | none => none
          | some k => some (.ok (nbo1 + 2 + k))
        else
          let nbo := nbo1 + 2
          let lx := { lx with file_offset := lx.file_offset + nbo }
          some (.error (lx, lx.mkSyntaxError (lx.file_offset - 1) lx.file_offset
            ("A number fractional part must start with a digit and not " ++
              squote (Char.ofNat d))))
    else some (.ok nbo1)

/-- The exponent stage of `JsonLexer::read_number`. -/
def numberExpStep (lx : JsonLexer) (input_buffer : List Byte) (is_ending : Bool) (nbo2 : Nat) :
    Option (Except (JsonLexer × SyntaxError) Nat) :=
  match input_buffer.get? nbo2 with
  | none => if is_ending then some (.ok nbo2) else none
  | some c =>
    if c = 0x65 ∨ c = 0x45 then
      match input_buffer.get? (nbo2 + 1) with
      | none => none
      | some d =>
        if d = 0x2D ∨ d = 0x2B then
          match input_buffer.get? (nbo2 + 2) with
          | none => none
          | some d2 =>
            if isAsciiDigit d2 then
              match read_digits (input_buffer.drop (nbo2 + 3)) is_ending with
              | none => none
              | some k => some (.ok (nbo2 + 3 + k))
            else
              let nbo := nbo2 + 3
              let lx := { lx with file_offset := lx.file_offset + nbo }
              some (.error (lx, lx.mkSyntaxError (lx.file_offset - 1) lx.file_offset
                ("A number exponential part must contain at least a digit, " ++
                  squote (Char.ofNat d2) ++ " found")))
        else if isAsciiDigit d then
          match read_digits (input_buffer.drop (nbo2 + 2)) is_ending with
          | none => none
          | some k => some (.ok (nbo2 + 2 + k))
        else
          let nbo := nbo2 + 2
          let lx := { lx with file_offset := lx.file_offset + nbo }
          some (.error (lx, lx.mkSyntaxError (lx.file_offset - 1) lx.file_offset
            ("A number exponential part must start with +, - or a digit, " ++
              squote (Char.ofNat d) ++ " found")))
    else some (.ok nbo2)

/-- `JsonLexer::read_number`. Returns the updated lexer and the token or
error; `none` means more bytes are needed. -/
def JsonLexer.read_number (lx : JsonLexer) (input_buffer : List Byte) (is_ending : Bool) :
    Option (JsonLexer × Except SyntaxError JsonToken) :=
  match input_buffer.get? 0 with
  | none => none
  | some c0 =>
  let nbo0 := if c0 = 0x2D then 1 else 0
  match input_buffer.get? nbo0 with
  | none => none
  | some c1 =>
  match numberIntPart input_buffer is_ending nbo0 c1 with
  | none => none
  | some none =>
      let nbo := nbo0 + 1
      let lx := { lx with file_offset := lx.file_offset + nbo }
      some (lx, .error (lx.mkSyntaxError (lx.file_offset - 1) lx.file_offset
        ("A number is not allowed to start with " ++ squote (Char.ofNat c1))))
  | some (some nbo1) =>
  match numberDotStep lx input_buffer is_ending nbo1 with
  | none => none
  | some (.error (lx, e)) => some (lx, .error e)
  | some (.ok nbo2) =>
  match numberExpStep lx input_buffer is_ending nbo2 with
  | none => none
  | some (.error (lx, e)) => some (lx, .error e)
  | some (.ok nbo3) =>
      some ({ lx with file_offset := lx.file_offset + nbo3 },
        .ok (.number (asciiChars (input_buffer.take nbo3))))

/-- The `read_hexa_char` step of a `\\uXXXX` escape: on a malformed escape
the code point is replaced by U+FFFD and the first error is kept
(`error.or` in the source); `w` is the width of the reported range. -/
def hexaStep (lx : JsonLexer) (error : Option SyntaxError) (val : List Byte)
    (pos w : Nat) : Nat × Option SyntaxError :=
  match read_hexa_char val with
  | .ok cp => (cp, error)
  | .error m => (0xFFFD, error.or (some (lx.mkSyntaxError (pos - w) pos m)))

/-- An error if present, otherwise a string token (the result `match` of
`read_string` at the closing quote). -/
def endMatch (e : Option SyntaxError) (s : List Char) : Except SyntaxError JsonToken :=
  match e with
  | some er => .error er
  | none => .ok (.string s)

/-- The value returned at the closing double quote of
`JsonLexer::read_string`: flush the pending raw segment, then the first
error if any, otherwise the decoded string token. -/
def stringEndResult (lx : JsonLexer) (input_buffer : List Byte) (error : Option SyntaxError)
    (string : Option (List Char × Nat)) (next_byte_offset : Nat) :
    Except SyntaxError JsonToken :=
  match error with
  | some e => .error e
  | none =>
    match string with
    | some (str, read_until) =>
      let (str, error) :=
        if read_until < next_byte_offset then
          let seg := (input_buffer.drop read_until).take (next_byte_offset - read_until)
          let (s, e) := lx.decode_utf8 seg (lx.file_offset + read_until)
          (str ++ s, e)
        else (str, none)
      endMatch error str
    | none =>
      let seg := (input_buffer.drop 1).take (next_byte_offset - 1)
      let (s, e) := lx.decode_utf8 seg (lx.file_offset + 1)
      endMatch e s

/-- The low-surrogate half of a `\\uXXXX` escape whose first code point
was not a Unicode scalar (starting at the six bytes `\\uXXXX` after the
high surrogate): returns the new error state and accumulated string; the
caller consumes six further bytes. `none` when more bytes are needed. -/
def surrogateTail (lx : JsonLexer) (error : Option SyntaxError) (str1 : List Char)
    (high_surrogate nbo2 : Nat) (rest5 : List Byte) :
    Option (Option SyntaxError × List Char) :=
  match rest5 with
  | s1 :: s2 :: s3 :: s4 :: s5 :: s6 :: _ =>
    let nbo3 := nbo2 + 6
    let error :=
      if ¬(s1 = 0x5C ∧ s2 = 0x75) then
        let pos := lx.file_offset + nbo3
        error.or (some (lx.mkSyntaxError (pos - 6) pos
          ("\\u" ++ natHex high_surrogate ++
            " is a high surrogate and should be followed by a low surrogate \\uXXXX")))
      else error
    let (low_surrogate, error) := hexaStep lx error [s3, s4, s5, s6] (lx.file_offset + nbo3) 6
    let error :=
      if ¬(0xDC00 ≤ low_surrogate ∧ low_surrogate ≤ 0xDFFF) then
        let pos := lx.file_offset + nbo3
        error.or (some (lx.mkSyntaxError (pos - 6) pos
          ("\\u" ++ natHex low_surrogate ++ " is not a valid low surrogate")))
      else error
    let code_point :=
      0x10000 + (high_surrogate % 0x400) * 0x400 + low_surrogate % 0x400
    match charFromU32 code_point with
    | some c => some (error, str1 ++ [c])
    | none =>
      let pos := lx.file_offset + nbo3
      let error := error.or (some (lx.mkSyntaxError (pos - 12) pos
        ("\\u" ++ natHex high_surrogate ++ "\\u" ++ natHex low_surrogate ++
          " is an invalid surrogate pair")))
      some (error, str1 ++ ['\uFFFD'])
  | _ => none

/-- The `\\uXXXX` arm of `JsonLexer::read_string` (starting at the four
hex digits, with `next_byte_offset` still at the backslash): returns the
new error state, the accumulated string, and how many bytes beyond the
`\\u` were consumed (4, or 10 for a surrogate pair); `none` when more
bytes are needed. -/
def escapeUStep (lx : JsonLexer) (error : Option SyntaxError) (str1 : List Char)
    (next_byte_offset : Nat) (rest1 : List Byte) :
    Option (Option SyntaxError × List Char × Nat) :=
  match rest1 with
  | h1 :: h2 :: h3 :: h4 :: rest5 =>
    let nbo2 := next_byte_offset + 6
    let (code_point, error) := hexaStep lx error [h1, h2, h3, h4] (lx.file_offset + nbo2) 4
    match charFromU32 code_point with
    | some c => some (error, str1 ++ [c], 4)
    | none =>
      let high_surrogate := code_point
      let error :=
        if ¬(0xD800 ≤ high_surrogate ∧ high_surrogate ≤ 0xDBFF) then
          let pos := lx.file_offset + nbo2
          error.or (some (lx.mkSyntaxError (pos - 6) pos
            ("\\u" ++ natHex high_surrogate ++ " is not a valid high surrogate")))
        else error
      -- low surrogate escape: `input_buffer.get(nbo..nbo + 6)?`
      (surrogateTail lx error str1 high_surrogate nbo2 rest5).map
        (fun p => (p.1, p.2, 10))
  | _ => none

/-- Flushing the pending raw segment of `read_string` before an escape:
the text decoded so far together with the first error
(`error = error.or(e)` in the source). -/
def flushSegment (lx : JsonLexer) (input_buffer : List Byte) (error : Option SyntaxError)
    (string : Option (List Char × Nat)) (next_byte_offset : Nat) :
    List Char × Option SyntaxError :=
  let (str0, read_until) := string.getD (([] : List Char), 1)
  if read_until < next_byte_offset then
    let seg := (input_buffer.drop read_until).take (next_byte_offset - read_until)
    let (s, e) := lx.decode_utf8 seg (lx.file_offset + read_until)
    (str0 ++ s, error.or e)
  else (str0, error)

/-- The escape arm (`b'\\\\'`) of `JsonLexer::read_string`, starting at the
byte after the backslash (`rest`), with `next_byte_offset` still at the
backslash: flushes the pending raw segment, decodes the escape, and
returns the new error state, the new accumulated string, and how many
bytes after the backslash were consumed (1 for a single-character escape,
5 for `\\uXXXX`, 11 for a surrogate pair); `none` when more bytes are
needed. -/
def escapeStep (lx : JsonLexer) (input_buffer : List Byte) (error : Option SyntaxError)
    (string : Option (List Char × Nat)) (next_byte_offset : Nat) (rest : List Byte) :
    Option (Option SyntaxError × List Char × Nat) :=
  let (str1, error) := flushSegment lx input_buffer error string next_byte_offset
  match rest with
  | [] => none
  | e1 :: rest1 =>
    if e1 = 0x22 then some (error, str1 ++ ['"'], 1)
    else if e1 = 0x5C then some (error, str1 ++ ['\\'], 1)
    else if e1 = 0x2F then some (error, str1 ++ ['/'], 1)
    else if e1 = 0x62 then some (error, str1 ++ ['\x08'], 1)
    else if e1 = 0x66 then some (error, str1 ++ ['\x0C'], 1)
    else if e1 = 0x6E then some (error, str1 ++ ['\n'], 1)
    else if e1 = 0x72 then some (error, str1 ++ ['\r'], 1)
    else if e1 = 0x74 then some (error, str1 ++ ['\t'], 1)
    else if e1 = 0x75 then
      match escapeUStep lx error str1 next_byte_offset rest1 with
      | none => none
      | some (error, str2, consumed) => some (error, str2, 1 + consumed)
    else
      let pos := lx.file_offset + next_byte_offset + 2
      let error := error.or (some (lx.mkSyntaxError (pos - 2) pos
        (String.mk ['\x27', '\\', Char.ofNat e1, '\x27'] ++ " is not a valid escape sequence")))
      some (error, str1 ++ ['\uFFFD'], 1)

/-- The scanning loop of `JsonLexer::read_string`, with the loop state
(`error`, `string` with its `read_until` marker, `next_byte_offset`) made
explicit; the last argument is the suffix of `input_buffer` starting at
`next_byte_offset`, so the byte lookups `input_buffer.get(..)` of the
source become pattern matches on it. Returns `none` when more bytes are
needed. -/
def JsonLexer.readStringGo (lx : JsonLexer) (input_buffer : List Byte) :
    Option SyntaxError → Option (List Char × Nat) → Nat → List Byte →
      Option (JsonLexer × Except SyntaxError JsonToken)
  | _, _, _, [] => none
  | error, string, next_byte_offset, b :: rest =>
    if b = 0x22 then
      some ({ lx with file_offset := lx.file_offset + next_byte_offset + 1 },
        stringEndResult lx input_buffer error string next_byte_offset)
    else if b = 0x5C then
      match escapeStep lx input_buffer error string next_byte_offset rest with
      | none => none
      | some (error, str2, consumed) =>
          lx.readStringGo input_buffer error
            (some (str2, next_byte_offset + 1 + consumed))
            (next_byte_offset + 1 + consumed) (rest.drop consumed)
    else if b ≤ 0x1F then
      let pos := lx.file_offset + next_byte_offset
      let error := error.or (some (lx.mkSyntaxError pos (pos + 1)
        (squote (Char.ofNat b) ++ " is not allowed in JSON strings")))
      lx.readStringGo input_buffer error string (next_byte_offset + 1) rest
    else
      lx.readStringGo input_buffer error string (next_byte_offset + 1) rest
termination_by _ _ _ rem => rem.length
decreasing_by
  all_goals simp [List.length_cons, List.length_drop]
  all_goals omega

/-- `JsonLexer::read_string`: the scan starts just after the opening
double quote. -/
def JsonLexer.read_string (lx : JsonLexer) (input_buffer : List Byte) :
    Option (JsonLexer × Except SyntaxError JsonToken) :=
  lx.readStringGo input_buffer none none 1 (input_buffer.drop 1)

/-- Result of the whitespace-skipping loop at the start of
`JsonLexer::read_next_token`: either done after `i` bytes, or an early
`None` return on a lone `\r` at the end of a non-final buffer (with the
file offset already advanced past the preceding whitespace). -/
inductive WsResult where
  | done (lx : JsonLexer) (i : Nat)
  | needMore (lx : JsonLexer)
deriving DecidableEq, Repr

/-- The whitespace-skipping loop of `JsonLexer::read_next_token`: advances
over spaces, tabs and line breaks, counting lines (`\r\n` and `\r` count
as one break); the buffer suffix from position `i` is scanned. -/
def skipWsGo (is_ending : Bool) (lx : JsonLexer) (i : Nat) (rem : List Byte) : WsResult :=
  match lx, i, rem with
  | lx, i, [] => .done lx i
  | lx, i, c :: rest =>
    if c = 0x20 ∨ c = 0x09 then skipWsGo is_ending lx (i + 1) rest
    else if c = 0x0A then
      skipWsGo is_ending
        { lx with file_line := lx.file_line + 1, file_start_of_last_line := lx.file_offset + (i + 1) }
        (i + 1) rest
    else if c = 0x0D then
      match rest.head? with
      | some c2 =>
        if c2 = 0x0A then
          skipWsGo is_ending
            { lx with file_line := lx.file_line + 1,
                      file_start_of_last_line := lx.file_offset + (i + 2) }
            (i + 2) rest.tail
        else
          skipWsGo is_ending
            { lx with file_line := lx.file_line + 1,
                      file_start_of_last_line := lx.file_offset + (i + 1) }
            (i + 1) rest
      | none =>
        if is_ending then
          skipWsGo is_ending
            { lx with file_line := lx.file_line + 1,
                      file_start_of_last_line := lx.file_offset + (i + 1) }
            (i + 1) rest
        else
          .needMore { lx with file_offset := lx.file_offset + i }
    else .done lx i
termination_by rem.length
decreasing_by
  all_goals first
    | (simp [List.length_cons, List.length_tail]; omega)
    | simp [List.length_cons, List.length_tail]
    | omega

/-- The token dispatch of `JsonLexer::read_next_token`, after whitespace
has been skipped and the buffer advanced to the start of the token. -/
def JsonLexer.tokenAfterWs (lx : JsonLexer) (input_buffer : List Byte) (is_ending : Bool) :
    JsonLexer × Option (Except SyntaxError JsonToken) :=
  if is_ending ∧ input_buffer = [] then (lx, some (.ok .eof))
  else
        match input_buffer with
        | [] => (lx, none)
        | c :: _ =>
          if c = 0x7B then
            ({ lx with file_offset := lx.file_offset + 1 }, some (.ok .openingCurlyBracket))
          else if c = 0x7D then
            ({ lx with file_offset := lx.file_offset + 1 }, some (.ok .closingCurlyBracket))
          else if c = 0x5B then
            ({ lx with file_offset := lx.file_offset + 1 }, some (.ok .openingSquareBracket))
          else if c = 0x5D then
            ({ lx with file_offset := lx.file_offset + 1 }, some (.ok .closingSquareBracket))
          else if c = 0x2C then
            ({ lx with file_offset := lx.file_offset + 1 }, some (.ok .comma))
          else if c = 0x3A then
            ({ lx with file_offset := lx.file_offset + 1 }, some (.ok .colon))
          else if c = 0x22 then
            match lx.read_string input_buffer with
            | none => (lx, none)
            | some (lx, r) => (lx, some r)
          else if c = 0x74 then
            match lx.read_constant input_buffer is_ending [0x74, 0x72, 0x75, 0x65] .true with
            | none => (lx, none)
            | some (lx, r) => (lx, some r)
          else if c = 0x66 then
            match lx.read_constant input_buffer is_ending [0x66, 0x61, 0x6C, 0x73, 0x65] .false with
            | none => (lx, none)
            | some (lx, r) => (lx, some r)
          else if c = 0x6E then
            match lx.read_constant input_buffer is_ending [0x6E, 0x75, 0x6C, 0x6C] .null with
            | none => (lx, none)
            | some (lx, r) => (lx, some r)
          else if c = 0x2D ∨ (0x30 ≤ c ∧ c ≤ 0x39) then
            match lx.read_number input_buffer is_ending with
            | none => (lx, none)
            | some (lx, r) => (lx, some r)
          else
            let lx := { lx with file_offset := lx.file_offset + 1 }
            (lx, some (.error (lx.mkSyntaxError (lx.file_offset - 1) lx.file_offset
              (if c < 128 then "Unexpected char: " ++ squote (Char.ofNat c)
               else "Unexpected byte: \\x" ++ natHex c))))

/-- The part of `JsonLexer::read_next_token` after the BOM handling: skips
whitespace, then dispatches on the first byte of the next token. -/
def JsonLexer.readTokenDispatch (lx : JsonLexer) (input_buffer : List Byte) (is_ending : Bool) :
    JsonLexer × Option (Except SyntaxError JsonToken) :=
  match skipWsGo is_ending lx 0 input_buffer with
  | .needMore lx => (lx, none)
  | .done lx i =>
    let lx := { lx with file_offset := lx.file_offset + i }
    let lx := { lx with file_start_of_last_token := lx.file_offset }
    lx.tokenAfterWs (input_buffer.drop i) is_ending

/-- `JsonLexer::read_next_token`: strips the BOM on the first call, then
skips whitespace and reads one token. Returns the updated lexer and `none`
when more bytes are needed. -/
def JsonLexer.read_next_token (lx : JsonLexer) (input_buffer : List Byte) (is_ending : Bool) :
    JsonLexer × Option (Except SyntaxError JsonToken) :=
  let bomStep : Option (JsonLexer × List Byte) :=
    if lx.is_start then
      if input_buffer.length < 3 ∧ !is_ending then none
      else
        let lx1 := { lx with is_start := false }
        if input_buffer.take 3 = [0xEF, 0xBB, 0xBF] then
          some ({ lx1 with file_offset := lx1.file_offset + 3 }, input_buffer.drop 3)
        else some (lx1, input_buffer)
    else some (lx, input_buffer)
  match bomStep with
  | none => (lx, none)
  | some (lx, input_buffer) => lx.readTokenDispatch input_buffer is_ending

/-! ## Structural state machine (`src/read.rs`) -/

/-- Grammar states (`JsonState` in `src/read.rs`). -/
inductive JsonState where
  | objectKey
  | objectKeyOrEnd
  | objectColon
  | objectValue
  | objectCommaOrEnd
  | arrayValue
  | arrayValueOrEnd
  | arrayCommaOrEnd
deriving DecidableEq, Repr

/-- State of `LowLevelJsonReader` in `src/read.rs`. -/
structure LowLevelJsonReader where
  lexer : JsonLexer
  state_stack : List JsonState
  max_state_stack_size : Nat
  element_read : Bool
  buffered_event : Option JsonEvent
deriving DecidableEq, Repr

/-- `LowLevelJsonReader::new`: `MAX_STATE_STACK_SIZE = 65_536` is the
default stack bound. -/
def LowLevelJsonReader.new : LowLevelJsonReader :=
  { lexer :=
      { file_offset := 0, file_line := 0, file_start_of_last_line := 0,
        file_start_of_last_token := 0, is_start := true },
    state_stack := [], max_state_stack_size := 65536,
    element_read := false, buffered_event := none }

/-- `LowLevelJsonReader::with_max_stack_size`. -/
def LowLevelJsonReader.with_max_stack_size (r : LowLevelJsonReader) (size : Nat) :
    LowLevelJsonReader :=
  { r with max_state_stack_size := size }

/-- The message of `LowLevelJsonReader::check_stack_size`. -/
def maxStackSizeMessage (m : Nat) : String :=
  "Max stack size of " ++ natDecimal m ++ " reached on an object opening"

/-- `LowLevelJsonReader::push_state_stack` (with `check_stack_size`
inlined), acting on the stack component: pushes unless the stack already
exceeds the maximum. -/
def pushStack (maxSize : Nat) (stack : List JsonState) (s : JsonState) :
    List JsonState × Option String :=
  if stack.length > maxSize then (stack, some (maxStackSizeMessage maxSize))
  else (s :: stack, none)

/-- `LowLevelJsonReader::apply_new_token_for_value`, acting on the
components the method mutates (the stack); returns the new stack, the
event and the error. -/
def applyForValueAux (maxSize : Nat) (stack : List JsonState) (token : JsonToken) :
    List JsonState × Option JsonEvent × Option String :=
  match token with
  | .openingSquareBracket =>
      let (stack', e) := pushStack maxSize stack .arrayValueOrEnd
      (stack', some .startArray, e)
  | .closingSquareBracket =>
      (stack, none, some "Unexpected closing square bracket, no array to close")
  | .openingCurlyBracket =>
      let (stack', e) := pushStack maxSize stack .objectKeyOrEnd
      (stack', some .startObject, e)
  | .closingCurlyBracket =>
      (stack, none, some "Unexpected closing curly bracket, no array to close")
  | .comma => (stack, none, some "Unexpected comma, no values to separate")
  | .colon => (stack, none, some "Unexpected colon, no key to follow")
  | .string s => (stack, some (.string s), none)
  | .number n => (stack, some (.number n), none)
  | .true => (stack, some (.boolean true), none)
  | .false => (stack, some (.boolean false), none)
  | .null => (stack, some .null, none)
  | .eof => (stack, some .eof, some "Unexpected end of file, a value was expected")

/-- Termination measure for `apply_new_token`: every self-call either
keeps the stack length and moves to a state of lower rank, or shortens
the stack. -/
def stackWeight : List JsonState → Nat
  | [] => 0
  | s :: t =>
      3 * t.length +
        (match s with | .objectKey | .objectValue | .arrayValue => 1 | _ => 2) + 1

/-- `LowLevelJsonReader::apply_new_token`, acting on the components the
method mutates (the stack and the `element_read` flag); `push_state_stack`
is inlined at the self-call sites. Returns the new stack, the new
`element_read` flag, the event and the error. -/
def applyNewTokenAux (maxSize : Nat) (stack : List JsonState) (elementRead : Bool)
    (token : JsonToken) : List JsonState × Bool × Option JsonEvent × Option String :=
  match stack with
  | .objectKeyOrEnd :: rest =>
      if token = .closingCurlyBracket then
        (rest, elementRead, some .endObject, none)
      else if rest.length > maxSize then
        (rest, elementRead, none, some (maxStackSizeMessage maxSize))
      else
        applyNewTokenAux maxSize (.objectKey :: rest) elementRead token
  | .objectKey :: rest =>
      if token = .closingCurlyBracket then
        (rest, elementRead, some .endObject, some "Trailing commas are not allowed")
      else if rest.length > maxSize then
        (rest, elementRead, none, some (maxStackSizeMessage maxSize))
      else
        match token with
        | .string key =>
            (.objectColon :: rest, elementRead, some (.objectKey key), none)
        | _ =>
            (.objectColon :: rest, elementRead, none, some "Object keys must be strings")
  | .objectColon :: rest =>
      if rest.length > maxSize then
        (rest, elementRead, none, some (maxStackSizeMessage maxSize))
      else if token = .colon then
        (.objectValue :: rest, elementRead, none, none)
      else
        let res := applyNewTokenAux maxSize (.objectValue :: rest) elementRead token
        (res.1, res.2.1, res.2.2.1, some "Object keys must be strings")
  | .objectValue :: rest =>
      if rest.length > maxSize then
        (rest, elementRead, none, some (maxStackSizeMessage maxSize))
      else
        let res := applyForValueAux maxSize (.objectCommaOrEnd :: rest) token
        (res.1, elementRead, res.2.1, res.2.2)
  | .objectCommaOrEnd :: rest =>
      match token with
      | .comma =>
          let (stack', e) := pushStack maxSize rest .objectKey
          (stack', elementRead, none, e)
      | .closingCurlyBracket => (rest, elementRead, some .endObject, none)
      | _ =>
          (rest, elementRead, none,
            some "Object values must be followed by a comma to add a new value or a curly bracket to end the object")
  | .arrayValueOrEnd :: rest =>
      if token = .closingSquareBracket then
        (rest, elementRead, some .endArray, none)
      else if rest.length > maxSize then
        (rest, elementRead, none, some (maxStackSizeMessage maxSize))
      else
        applyNewTokenAux maxSize (.arrayValue :: rest) elementRead token
  | .arrayValue :: rest =>
      if token = .closingSquareBracket then
        (rest, elementRead, some .endArray, some "Trailing commas are not allowed")
      else if rest.length > maxSize then
        (rest, elementRead, none, some (maxStackSizeMessage maxSize))
      else
        let res := applyForValueAux maxSize (.arrayCommaOrEnd :: rest) token
        (res.1, elementRead, res.2.1, res.2.2)
  | .arrayCommaOrEnd :: rest =>
      match token with
      | .comma =>
          let (stack', e) := pushStack maxSize rest .arrayValue
          (stack', elementRead, none, e)
      | .closingSquareBracket => (rest, elementRead, some .endArray, none)
      | _ =>
          if rest.length > maxSize then
            let res := applyNewTokenAux maxSize rest elementRead token
            (res.1, res.2.1, res.2.2.1,
              some "Array values must be followed by a comma to add a new value or a squared bracket to end the array")
          else
            let res := applyNewTokenAux maxSize (.arrayValue :: rest) elementRead token
            (res.1, res.2.1, res.2.2.1,
              some "Array values must be followed by a comma to add a new value or a squared bracket to end the array")
  | [] =>
      if elementRead then
        if token = .eof then (stack, elementRead, some .eof, none)
        else (stack, elementRead, none, some "The JSON already contains one root element")
      else
        let res := applyForValueAux maxSize stack token
        (res.1, true, res.2.1, res.2.2)
termination_by stackWeight stack
decreasing_by
  all_goals simp only [stackWeight, List.length_cons]
  all_goals first
    | omega
    | (cases rest with
       | nil => simp [stackWeight]
       | cons s t => simp only [stackWeight, List.length_cons]; rcases s <;> simp <;> omega)

/-- `LowLevelJsonReader::apply_new_token`: the method mutates the stack and
the `element_read` flag of the parser state. -/
def LowLevelJsonReader.apply_new_token (r : LowLevelJsonReader) (token : JsonToken) :
    LowLevelJsonReader × Option JsonEvent × Option String :=
  let res := applyNewTokenAux r.max_state_stack_size r.state_stack r.element_read token
  ({ r with state_stack := res.1, element_read := res.2.1 }, res.2.2.1, res.2.2.2)

theorem apply_for_value_not_silent (maxSize : Nat) (stack : List JsonState)
    (token : JsonToken) :
    (applyForValueAux maxSize stack token).2 ≠ (none, none) := by
  cases token <;> simp [applyForValueAux, pushStack] <;> split <;> simp

set_option maxHeartbeats 1000000 in
theorem apply_new_token_silent {maxSize : Nat} {stack stack' : List JsonState}
    {el el' : Bool} {token : JsonToken}
    (h : applyNewTokenAux maxSize stack el token = (stack', el', none, none)) :
    token = .comma ∨ token = .colon := by
  induction stack, el, token using applyNewTokenAux.induct maxSize
  all_goals (try simp only [applyNewTokenAux] at h)
  all_goals (try split_ifs at h)
  all_goals solve
    | simp at h
    | simp
    | (rename_i ih; exact ih h)
    | (simp at h; exact absurd h.2.2 (apply_for_value_not_silent maxSize _ _))
    | (rename JsonToken => tk; rcases tk <;> simp_all [applyNewTokenAux])


theorem takeWhile_length_le {α} (p : α → Bool) (l : List α) :
    (l.takeWhile p).length ≤ l.length := by
  induction l with
  | nil => simp
  | cons a t ih => by_cases hp : p a <;> simp [List.takeWhile_cons, hp] <;> omega

theorem read_digits_le {l : List Byte} {e : Bool} {k : Nat}
    (h : read_digits l e = some k) : k ≤ l.length := by
  by_cases hc : (l.takeWhile isAsciiDigit).length = l.length ∧ (!e) = true
  · simp [read_digits, hc] at h
  · simp [read_digits, hc] at h
    rw [← h.2]
    exact takeWhile_length_le _ _

theorem skipWsGo_done {e : Bool} {lx lx' : JsonLexer} {i j : Nat} {rem : List Byte}
    (h : skipWsGo e lx i rem = .done lx' j) :
    lx'.file_offset = lx.file_offset ∧ i ≤ j ∧ j ≤ i + rem.length ∧
    lx'.file_start_of_last_token = lx.file_start_of_last_token ∧
    lx'.is_start = lx.is_start := by
  induction lx, i, rem using skipWsGo.induct e generalizing lx' j with
  | case1 lx i =>
      simp [skipWsGo] at h
      obtain ⟨rfl, rfl⟩ := h
      simp
  | case2 lx i c rest hc ih =>
      rw [skipWsGo, if_pos hc] at h
      obtain ⟨h1, h2, h3, h4, h5⟩ := ih h
      refine ⟨?_, ?_, ?_, ?_, ?_⟩ <;>
        first | (simp_all; omega) | simp_all | omega
  | case3 lx i rest hc ih =>
      rw [skipWsGo] at h
      norm_num at h
      obtain ⟨h1, h2, h3, h4, h5⟩ := ih h
      refine ⟨?_, ?_, ?_, ?_, ?_⟩ <;>
        first | (simp_all; omega) | simp_all | omega
  | case4 lx i rest hc1 hc2 hh ih =>
      rw [skipWsGo] at h
      norm_num [hh] at h
      have hlen : 1 ≤ rest.length := by cases rest <;> simp_all
      obtain ⟨h1, h2, h3, h4, h5⟩ := ih h
      refine ⟨?_, ?_, ?_, ?_, ?_⟩ <;>
        first | (simp_all [List.length_tail]; omega) | simp_all [List.length_tail] | omega
  | case5 lx i rest c2 hh hc2 hc3 hc4 ih =>
      rw [skipWsGo] at h
      norm_num [hh, hc2] at h
      obtain ⟨h1, h2, h3, h4, h5⟩ := ih h
      refine ⟨?_, ?_, ?_, ?_, ?_⟩ <;>
        first | (simp_all; omega) | simp_all | omega
  | case6 lx i rest hh he hc3 hc4 ih =>
      subst he
      have hrest : rest = [] := by cases rest <;> simp_all
      subst hrest
      rw [skipWsGo] at h
      norm_num at h
      obtain ⟨h1, h2, h3, h4, h5⟩ := ih h
      refine ⟨?_, ?_, ?_, ?_, ?_⟩ <;>
        first | (simp_all; omega) | simp_all | omega
  | case7 lx i rest hh he =>
      rw [skipWsGo] at h
      norm_num [hh, he] at h
      exact absurd h (by simp)
  | case8 lx i c rest hc1 hc2 hc3 =>
      rw [skipWsGo] at h
      norm_num [hc1, hc2, hc3] at h
      obtain ⟨rfl, rfl⟩ := h
      simp

theorem skipWsGo_needMore {e : Bool} {lx lx' : JsonLexer} {i : Nat} {rem : List Byte}
    (h : skipWsGo e lx i rem = .needMore lx') :
    lx.file_offset ≤ lx'.file_offset ∧ lx'.file_offset ≤ lx.file_offset + i + rem.length ∧
    lx'.file_start_of_last_token = lx.file_start_of_last_token ∧
    lx'.is_start = lx.is_start := by
  induction lx, i, rem using skipWsGo.induct e generalizing lx' with
  | case1 lx i =>
      simp [skipWsGo] at h
  | case2 lx i c rest hc ih =>
      rw [skipWsGo, if_pos hc] at h
      obtain ⟨h1, h2, h3, h4⟩ := ih h
      refine ⟨?_, ?_, ?_, ?_⟩ <;>
        first | (simp_all; omega) | simp_all | omega
  | case3 lx i rest hc ih =>
      rw [skipWsGo] at h
      norm_num at h
      obtain ⟨h1, h2, h3, h4⟩ := ih h
      refine ⟨?_, ?_, ?_, ?_⟩ <;>
        first | (simp_all; omega) | simp_all | omega
  | case4 lx i rest hc1 hc2 hh ih =>
      rw [skipWsGo] at h
      norm_num [hh] at h
      have hlen : 1 ≤ rest.length := by cases rest <;> simp_all
      obtain ⟨h1, h2, h3, h4⟩ := ih h
      refine ⟨?_, ?_, ?_, ?_⟩ <;>
        first | (simp_all [List.length_tail]; omega) | simp_all [List.length_tail] | omega
  | case5 lx i rest c2 hh hc2 hc3 hc4 ih =>
      rw [skipWsGo] at h
      norm_num [hh, hc2] at h
      obtain ⟨h1, h2, h3, h4⟩ := ih h
      refine ⟨?_, ?_, ?_, ?_⟩ <;>
        first | (simp_all; omega) | simp_all | omega
  | case6 lx i rest hh he hc3 hc4 ih =>
      subst he
      have hrest : rest = [] := by cases rest <;> simp_all
      subst hrest
      rw [skipWsGo] at h
      norm_num at h
      obtain ⟨h1, h2, h3, h4⟩ := ih h
      refine ⟨?_, ?_, ?_, ?_⟩ <;>
        first | (simp_all; omega) | simp_all | omega
  | case7 lx i rest hh he =>
      rw [skipWsGo] at h
      norm_num [hh, he] at h
      rw [← h]
      refine ⟨by simp, ?_, by simp, by simp⟩
      first | (simp; omega) | simp | omega
  | case8 lx i c rest hc1 hc2 hc3 =>
      rw [skipWsGo] at h
      norm_num [hc1, hc2, hc3] at h
      exact absurd h (by simp)

theorem endMatch_shape (e : Option SyntaxError) (s : List Char) :
    (∃ er, endMatch e s = .error er) ∨ (∃ s', endMatch e s = .ok (.string s')) := by
  cases e <;> simp [endMatch]

theorem stringEndResult_shape (lx : JsonLexer) (buf : List Byte) (error : Option SyntaxError)
    (string : Option (List Char × Nat)) (nbo : Nat) :
    (∃ er, stringEndResult lx buf error string nbo = .error er) ∨
    (∃ s, stringEndResult lx buf error string nbo = .ok (.string s)) := by
  unfold stringEndResult
  repeat' split
  all_goals solve
    | simp
    | apply endMatch_shape

theorem surrogateTail_some_len {lx : JsonLexer} {error : Option SyntaxError}
    {str1 : List Char} {hi nbo2 : Nat} {rest5 : List Byte} {p : Option SyntaxError × List Char}
    (h : surrogateTail lx error str1 hi nbo2 rest5 = some p) : 6 ≤ rest5.length := by
  rcases rest5 with _ | ⟨b1, _ | ⟨b2, _ | ⟨b3, _ | ⟨b4, _ | ⟨b5, _ | ⟨b6, r11⟩⟩⟩⟩⟩⟩ <;>
    simp_all [surrogateTail, List.length_cons] <;> omega

theorem escapeUStep_consumed {lx : JsonLexer} {error e' : Option SyntaxError}
    {str1 s' : List Char} {nbo : Nat} {rest1 : List Byte} {c : Nat}
    (h : escapeUStep lx error str1 nbo rest1 = some (e', s', c)) :
    (c = 4 ∧ 4 ≤ rest1.length) ∨ (c = 10 ∧ 10 ≤ rest1.length) := by
  rcases rest1 with _ | ⟨a1, _ | ⟨a2, _ | ⟨a3, _ | ⟨a4, r5⟩⟩⟩⟩
  · simp [escapeUStep] at h
  · simp [escapeUStep] at h
  · simp [escapeUStep] at h
  · simp [escapeUStep] at h
  · unfold escapeUStep at h
    rcases hx : charFromU32 ((hexaStep lx error [a1, a2, a3, a4] (lx.file_offset + (nbo + 6)) 4).1)
      with _ | ch
    · simp only [hx, Option.map_eq_some'] at h
      obtain ⟨p, hp, hpc⟩ := h
      have h6 := surrogateTail_some_len hp
      simp at hpc
      exact Or.inr ⟨hpc.2.2.symm, by simp [List.length_cons]; omega⟩
    · simp only [hx, Option.some.injEq, Prod.mk.injEq] at h
      obtain ⟨-, -, hc⟩ := h
      exact Or.inl ⟨hc.symm, by simp [List.length_cons]⟩

theorem escapeStep_consumed {lx : JsonLexer} {buf : List Byte} {error e' : Option SyntaxError}
    {string : Option (List Char × Nat)} {s' : List Char} {nbo : Nat} {rest : List Byte} {c : Nat}
    (h : escapeStep lx buf error string nbo rest = some (e', s', c)) :
    1 ≤ c ∧ c ≤ rest.length := by
  unfold escapeStep at h
  rcases rest with _ | ⟨e1, rest1⟩
  · simp at h
  · simp only [] at h
    split_ifs at h <;>
      first
        | (simp at h; obtain ⟨-, -, hc⟩ := h; subst hc; simp [List.length_cons])
        | (rcases hu : escapeUStep lx (flushSegment lx buf error string nbo).2
             (flushSegment lx buf error string nbo).1 nbo rest1 with _ | ⟨⟨eu, su, cu⟩⟩
           · simp only [hu, Option.map_eq_some'] at h
             simp at h
           · simp only [hu, Option.map_eq_some'] at h
             simp at h
             obtain ⟨-, -, hc⟩ := h
             rcases escapeUStep_consumed hu with ⟨rfl, hb⟩ | ⟨rfl, hb⟩ <;>
               simp_all [List.length_cons] <;> omega)

theorem readStringGo_some {lx : JsonLexer} {buf : List Byte} :
    ∀ n {rem : List Byte} {err : Option SyntaxError} {str : Option (List Char × Nat)}
      {nbo : Nat} {lx' : JsonLexer} {res : Except SyntaxError JsonToken},
      rem.length ≤ n →
      lx.readStringGo buf err str nbo rem = some (lx', res) →
      (lx.file_offset + nbo < lx'.file_offset ∧
       lx'.file_offset ≤ lx.file_offset + nbo + rem.length ∧
       lx'.file_line = lx.file_line ∧
       lx'.file_start_of_last_line = lx.file_start_of_last_line ∧
       lx'.file_start_of_last_token = lx.file_start_of_last_token ∧
       lx'.is_start = lx.is_start ∧
       ((∃ er, res = .error er) ∨ (∃ s, res = .ok (.string s)))) := by
  intro n
  induction n with
  | zero =>
      intro rem err str nbo lx' res hlen h
      have hnil : rem = [] := List.length_eq_zero.mp (Nat.le_zero.mp hlen)
      subst hnil
      rw [JsonLexer.readStringGo] at h
      simp at h
  | succ n ih =>
      intro rem err str nbo lx' res hlen h
      match rem with
      | [] =>
        rw [JsonLexer.readStringGo] at h
        simp at h
      | b :: rest =>
        rw [JsonLexer.readStringGo] at h
        split_ifs at h
        · -- closing quote
          simp at h
          obtain ⟨h1, h2⟩ := h
          subst h1
          refine ⟨by first | (simp; omega) | simp | omega,
            by first | (simp [List.length_cons]; omega) | simp [List.length_cons] | omega,
            by simp, by simp, by simp, by simp, ?_⟩
          rw [← h2]
          apply stringEndResult_shape
        · -- escape
          rcases hes : escapeStep lx buf err str nbo rest with _ | ⟨⟨e2, s2, c2⟩⟩
          · rw [hes] at h
            simp at h
          · rw [hes] at h
            simp only [] at h
            obtain ⟨hc1, hc2⟩ := escapeStep_consumed hes
            obtain ⟨p1, p2, p3, p4, p5, p6, p7⟩ :=
              ih (by simp at hlen ⊢; omega) h
            exact ⟨by omega, by simp [List.length_cons] at *; omega, p3, p4, p5, p6, p7⟩
        · -- control character
          obtain ⟨p1, p2, p3, p4, p5, p6, p7⟩ := ih (by simp at hlen ⊢; omega) h
          exact ⟨by omega, by simp [List.length_cons] at *; omega, p3, p4, p5, p6, p7⟩
        · -- plain byte
          obtain ⟨p1, p2, p3, p4, p5, p6, p7⟩ := ih (by simp at hlen ⊢; omega) h
          exact ⟨by omega, by simp [List.length_cons] at *; omega, p3, p4, p5, p6, p7⟩

theorem get_some_lt {α} {l : List α} {n : Nat} {a : α} (h : l.get? n = some a) :
    n < l.length := by
  by_contra hn
  rw [List.get?_eq_none.mpr (by omega)] at h
  simp at h

theorem getRange_some {l : List Byte} {a b : Nat} {s : List Byte}
    (h : getRange l a b = some s) : a ≤ b ∧ b ≤ l.length := by
  by_cases hc : a ≤ b ∧ b ≤ l.length
  · exact hc
  · simp [getRange, hc] at h

theorem read_constant_some {lx lx' : JsonLexer} {buf expected : List Byte} {e : Bool}
    {v : JsonToken} {res : Except SyntaxError JsonToken}
    (hexp : expected ≠ [])
    (h : lx.read_constant buf e expected v = some (lx', res)) :
    lx.file_offset < lx'.file_offset ∧ lx'.file_offset ≤ lx.file_offset + buf.length ∧
    lx'.file_line = lx.file_line ∧
    lx'.file_start_of_last_line = lx.file_start_of_last_line ∧
    lx'.file_start_of_last_token = lx.file_start_of_last_token ∧
    lx'.is_start = lx.is_start := by
  have hexplen : 1 ≤ expected.length := by
    cases expected <;> simp_all [List.length_cons]
  have hta := takeWhile_length_le isAsciiAlphabetic buf
  unfold JsonLexer.read_constant at h
  rcases hg : getRange buf 0 expected.length with _ | pre
  · rw [hg] at h; simp at h
  · rw [hg] at h
    simp only [] at h
    obtain ⟨-, hblen⟩ := getRange_some hg
    split_ifs at h with h1 h2
    all_goals solve
      | simp at h
      | (simp at h
         obtain ⟨rfl, -⟩ := ⟨h.1.symm, h.2⟩
         refine ⟨?_, ?_, ?_, ?_, ?_, ?_⟩ <;> simp <;> omega)
      | (simp at h
         obtain ⟨rfl, -⟩ := h
         refine ⟨?_, ?_, ?_, ?_, ?_, ?_⟩ <;> simp <;> omega)

theorem numberIntPart_some {buf : List Byte} {e : Bool} {nbo0 : Nat} {c1 : Byte} {r : Option Nat}
    (h : numberIntPart buf e nbo0 c1 = some r) :
    ∀ n, r = some n → nbo0 + 1 ≤ n ∧ n ≤ max (nbo0 + 1) buf.length := by
  intro n hr
  subst hr
  unfold numberIntPart at h
  split_ifs at h with h1 h2
  · simp at h
    omega
  · rcases hd : read_digits (buf.drop (nbo0 + 1)) e with _ | k
    · rw [hd] at h; simp at h
    · rw [hd] at h
      simp at h
      have := read_digits_le hd
      simp [List.length_drop] at this
      omega
  · simp at h

theorem numberDotStep_some {lx : JsonLexer} {buf : List Byte} {e : Bool} {nbo1 : Nat}
    {r : Except (JsonLexer × SyntaxError) Nat}
    (h : numberDotStep lx buf e nbo1 = some r) :
    (∀ n, r = .ok n → nbo1 ≤ n ∧ n ≤ max nbo1 buf.length) ∧
    (∀ lx2 er, r = .error (lx2, er) →
      lx2 = { lx with file_offset := lx.file_offset + (nbo1 + 2) } ∧ nbo1 + 2 ≤ buf.length) := by
  unfold numberDotStep at h
  rcases h0 : buf.get? nbo1 with _ | c
  · rw [h0] at h
    simp only [] at h
    split_ifs at h
    · simp at h
      subst h
      constructor
      · intro n hn; injection hn with hn; omega
      · intro lx2 er he; simp at he
  · rw [h0] at h
    simp only [] at h
    have hlt := get_some_lt h0
    split_ifs at h with hdot
    · rcases h1 : buf.get? (nbo1 + 1) with _ | d
      · rw [h1] at h; simp at h
      · rw [h1] at h
        simp only [] at h
        have hlt1 := get_some_lt h1
        split_ifs at h with hdig
        · rcases hd : read_digits (buf.drop (nbo1 + 2)) e with _ | k
          · rw [hd] at h; simp at h
          · rw [hd] at h
            simp only [Option.some.injEq] at h
            subst h
            have := read_digits_le hd
            simp [List.length_drop] at this
            constructor
            · intro n hn; injection hn with hn; omega
            · intro lx2 er he; simp at he
        · simp only [Option.some.injEq] at h
          subst h
          constructor
          · intro n hn; simp at hn
          · intro lx2 er he
            simp at he
            exact ⟨he.1.symm, by omega⟩
    · simp only [Option.some.injEq] at h
      subst h
      constructor
      · intro n hn; injection hn with hn; omega
      · intro lx2 er he; simp at he

theorem numberExpStep_some {lx : JsonLexer} {buf : List Byte} {e : Bool} {nbo2 : Nat}
    {r : Except (JsonLexer × SyntaxError) Nat}
    (h : numberExpStep lx buf e nbo2 = some r) :
    (∀ n, r = .ok n → nbo2 ≤ n ∧ n ≤ max nbo2 buf.length) ∧
    (∀ lx2 er, r = .error (lx2, er) →
      (lx2 = { lx with file_offset := lx.file_offset + (nbo2 + 2) } ∨
       lx2 = { lx with file_offset := lx.file_offset + (nbo2 + 3) }) ∧
      lx2.file_offset ≤ lx.file_offset + buf.length) := by
  unfold numberExpStep at h
  rcases h0 : buf.get? nbo2 with _ | c
  · rw [h0] at h
    simp only [] at h
    split_ifs at h
    · simp at h
      subst h
      constructor
      · intro n hn; injection hn with hn; omega
      · intro lx2 er he; simp at he
  · rw [h0] at h
    simp only [] at h
    have hlt := get_some_lt h0
    split_ifs at h with hec
    · rcases h1 : buf.get? (nbo2 + 1) with _ | d
      · rw [h1] at h; simp at h
      · rw [h1] at h
        simp only [] at h
        have hlt1 := get_some_lt h1
        split_ifs at h with hsign hdig
        · rcases h2 : buf.get? (nbo2 + 2) with _ | d2
          · rw [h2] at h; simp at h
          · rw [h2] at h
            simp only [] at h
            have hlt2 := get_some_lt h2
            split_ifs at h with hdig2
            · rcases hd : read_digits (buf.drop (nbo2 + 3)) e with _ | k
              · rw [hd] at h; simp at h
              · rw [hd] at h
                simp only [Option.some.injEq] at h
                subst h
                have := read_digits_le hd
                simp [List.length_drop] at this
                constructor
                · intro n hn; injection hn with hn; omega
                · intro lx2 er he; simp at he
            · simp only [Option.some.injEq] at h
              subst h
              constructor
              · intro n hn; simp at hn
              · intro lx2 er he
                simp at he
                refine ⟨Or.inr he.1.symm, ?_⟩
                rw [← he.1]
                simp
                omega
        · rcases hd : read_digits (buf.drop (nbo2 + 2)) e with _ | k
          · rw [hd] at h; simp at h
          · rw [hd] at h
            simp only [Option.some.injEq] at h
            subst h
            have := read_digits_le hd
            simp [List.length_drop] at this
            constructor
            · intro n hn; injection hn with hn; omega
            · intro lx2 er he; simp at he
        · simp only [Option.some.injEq] at h
          subst h
          constructor
          · intro n hn; simp at hn
          · intro lx2 er he
            simp at he
            refine ⟨Or.inl he.1.symm, ?_⟩
            rw [← he.1]
            simp
            omega
    · simp only [Option.some.injEq] at h
      subst h
      constructor
      · intro n hn; injection hn with hn; omega
      · intro lx2 er he; simp at he

theorem read_number_some {lx lx' : JsonLexer} {buf : List Byte} {e : Bool}
    {res : Except SyntaxError JsonToken}
    (h : lx.read_number buf e = some (lx', res)) :
    lx.file_offset < lx'.file_offset ∧ lx'.file_offset ≤ lx.file_offset + buf.length ∧
    lx'.file_line = lx.file_line ∧
    lx'.file_start_of_last_line = lx.file_start_of_last_line ∧
    lx'.file_start_of_last_token = lx.file_start_of_last_token ∧
    lx'.is_start = lx.is_start := by
  unfold JsonLexer.read_number at h
  rcases h0 : buf.get? 0 with _ | c0
  · rw [h0] at h; simp at h
  rw [h0] at h
  simp only [] at h
  set nbo0 := (if c0 = 0x2D then 1 else 0 : Nat) with hnbo0
  have hn0 : nbo0 ≤ 1 := by rw [hnbo0]; split <;> omega
  rcases h1 : buf.get? nbo0 with _ | c1
  · rw [h1] at h; simp at h
  rw [h1] at h
  simp only [] at h
  have hlt1 := get_some_lt h1
  rcases hip : numberIntPart buf e nbo0 c1 with _ | (_ | nbo1)
  · rw [hip] at h; simp at h
  · rw [hip] at h
    simp only [] at h
    simp only [Option.some.injEq, Prod.mk.injEq] at h
    obtain ⟨hlx, -⟩ := h
    rw [← hlx]
    refine ⟨?_, ?_, by simp, by simp, by simp, by simp⟩ <;>
      first | (simp; omega) | simp | omega
  · rw [hip] at h
    simp only [] at h
    obtain ⟨hn1a, hn1b⟩ := numberIntPart_some hip nbo1 rfl
    rcases hds : numberDotStep lx buf e nbo1 with _ | (⟨⟨lx2, er⟩⟩ | nbo2)
    · rw [hds] at h; simp at h
    · rw [hds] at h
      simp only [] at h
      obtain ⟨hdo, hde⟩ := numberDotStep_some hds
      obtain ⟨hlx2, hb2⟩ := hde lx2 er rfl
      simp only [Option.some.injEq, Prod.mk.injEq] at h
      obtain ⟨hlx, -⟩ := h
      rw [← hlx, hlx2]
      refine ⟨?_, ?_, by simp, by simp, by simp, by simp⟩ <;>
        first | (simp; omega) | simp | omega
    · rw [hds] at h
      simp only [] at h
      obtain ⟨hdo, hde⟩ := numberDotStep_some hds
      obtain ⟨hn2a, hn2b⟩ := hdo nbo2 rfl
      rcases hes : numberExpStep lx buf e nbo2 with _ | (⟨⟨lx2, er⟩⟩ | nbo3)
      · rw [hes] at h; simp at h
      · rw [hes] at h
        simp only [] at h
        obtain ⟨heo, hee⟩ := numberExpStep_some hes
        obtain ⟨hlx2, hb2⟩ := hee lx2 er rfl
        simp only [Option.some.injEq, Prod.mk.injEq] at h
        obtain ⟨hlx, -⟩ := h
        rcases hlx2 with hlx2 | hlx2 <;>
          (rw [← hlx]
           rw [hlx2] at hb2 ⊢
           simp at hb2 ⊢
           omega)
      · rw [hes] at h
        simp only [] at h
        obtain ⟨heo, hee⟩ := numberExpStep_some hes
        obtain ⟨hn3a, hn3b⟩ := heo nbo3 rfl
        simp only [Option.some.injEq, Prod.mk.injEq] at h
        obtain ⟨hlx, -⟩ := h
        rw [← hlx]
        refine ⟨?_, ?_, by simp, by simp, by simp, by simp⟩ <;>
          first | (simp; omega) | simp | omega

set_option maxHeartbeats 2000000 in
theorem tokenAfterWs_some {lx lx' : JsonLexer} {buf : List Byte} {e : Bool}
    {r : Option (Except SyntaxError JsonToken)}
    (h : lx.tokenAfterWs buf e = (lx', r)) :
    lx.file_offset ≤ lx'.file_offset ∧ lx'.file_offset ≤ lx.file_offset + buf.length ∧
    (∀ t, r = some (.ok t) → t ≠ .eof → lx.file_offset < lx'.file_offset) := by
  unfold JsonLexer.tokenAfterWs at h
  rcases buf with _ | ⟨c, rest⟩
  · by_cases hcond : e = true
    · rw [if_pos ⟨hcond, rfl⟩] at h
      simp only [Prod.mk.injEq] at h
      obtain ⟨hlx, hr⟩ := h
      subst hlx
      refine ⟨le_refl _, by omega, ?_⟩
      intro t ht hne
      rw [← hr] at ht
      simp at ht
      exact absurd ht.symm hne
    · rw [if_neg (by simp [hcond])] at h
      (try simp only [] at h)
      simp only [Prod.mk.injEq] at h
      obtain ⟨hlx, hr⟩ := h
      subst hlx
      exact ⟨le_refl _, by omega, by intro t ht _; rw [← hr] at ht; simp at ht⟩
  · rw [if_neg (by simp)] at h
    (try simp only [] at h)
    by_cases h7B : c = 0x7B
    · rw [if_pos h7B] at h
      simp only [Prod.mk.injEq] at h
      obtain ⟨hlx, hr⟩ := h
      rw [← hlx]
      refine ⟨?_, ?_, by intro t ht hne; first | (simp; omega) | simp | omega⟩ <;>
        first | (simp [List.length_cons]; omega) | simp [List.length_cons] | simp | omega
    · rw [if_neg h7B] at h
      by_cases h7D : c = 0x7D
      · rw [if_pos h7D] at h
        simp only [Prod.mk.injEq] at h
        obtain ⟨hlx, hr⟩ := h
        rw [← hlx]
        refine ⟨?_, ?_, by intro t ht hne; first | (simp; omega) | simp | omega⟩ <;>
          first | (simp [List.length_cons]; omega) | simp [List.length_cons] | simp | omega
      · rw [if_neg h7D] at h
        by_cases h5B : c = 0x5B
        · rw [if_pos h5B] at h
          simp only [Prod.mk.injEq] at h
          obtain ⟨hlx, hr⟩ := h
          rw [← hlx]
          refine ⟨?_, ?_, by intro t ht hne; first | (simp; omega) | simp | omega⟩ <;>
            first | (simp [List.length_cons]; omega) | simp [List.length_cons] | simp | omega
        · rw [if_neg h5B] at h
          by_cases h5D : c = 0x5D
          · rw [if_pos h5D] at h
            simp only [Prod.mk.injEq] at h
            obtain ⟨hlx, hr⟩ := h
            rw [← hlx]
            refine ⟨?_, ?_, by intro t ht hne; first | (simp; omega) | simp | omega⟩ <;>
              first | (simp [List.length_cons]; omega) | simp [List.length_cons] | simp | omega
          · rw [if_neg h5D] at h
            by_cases h2C : c = 0x2C
            · rw [if_pos h2C] at h
              simp only [Prod.mk.injEq] at h
              obtain ⟨hlx, hr⟩ := h
              rw [← hlx]
              refine ⟨?_, ?_, by intro t ht hne; first | (simp; omega) | simp | omega⟩ <;>
                first | (simp [List.length_cons]; omega) | simp [List.length_cons] | simp | omega
            · rw [if_neg h2C] at h
              by_cases h3A : c = 0x3A
              · rw [if_pos h3A] at h
                simp only [Prod.mk.injEq] at h
                obtain ⟨hlx, hr⟩ := h
                rw [← hlx]
                refine ⟨?_, ?_, by intro t ht hne; first | (simp; omega) | simp | omega⟩ <;>
                  first | (simp [List.length_cons]; omega) | simp [List.length_cons] | simp | omega
              · rw [if_neg h3A] at h
                by_cases h22 : c = 0x22
                · rw [if_pos h22] at h
                  rcases hrs : lx.read_string (c :: rest) with _ | ⟨lxs, rs⟩
                  · rw [hrs] at h
                    simp only [Prod.mk.injEq] at h
                    obtain ⟨hlx, hr⟩ := h
                    subst hlx
                    exact ⟨le_refl _, by omega, by intro t ht _; rw [← hr] at ht; simp at ht⟩
                  · rw [hrs] at h
                    simp only [Prod.mk.injEq] at h
                    obtain ⟨hlx, hr⟩ := h
                    subst hlx
                    simp only [JsonLexer.read_string, List.drop_succ_cons, List.drop_zero] at hrs
                    obtain ⟨p1, p2, -, -, -, -, -⟩ := readStringGo_some rest.length (le_refl _) hrs
                    exact ⟨by omega, by first | (simp [List.length_cons]; omega) | omega,
                      by intro t ht hne; omega⟩
                · rw [if_neg h22] at h
                  by_cases h74 : c = 0x74
                  · rw [if_pos h74] at h
                    rcases hrs : lx.read_constant (c :: rest) e [0x74, 0x72, 0x75, 0x65] .true with _ | ⟨lxs, rs⟩
                    · rw [hrs] at h
                      simp only [Prod.mk.injEq] at h
                      obtain ⟨hlx, hr⟩ := h
                      subst hlx
                      exact ⟨le_refl _, by omega, by intro t ht _; rw [← hr] at ht; simp at ht⟩
                    · rw [hrs] at h
                      simp only [Prod.mk.injEq] at h
                      obtain ⟨hlx, hr⟩ := h
                      subst hlx
                      obtain ⟨p1, p2, -, -, -, -⟩ := read_constant_some (by simp) hrs
                      exact ⟨by omega, by first | (simp [List.length_cons]; omega) | omega,
                        by intro t ht hne; omega⟩
                  · rw [if_neg h74] at h
                    by_cases h66 : c = 0x66
                    · rw [if_pos h66] at h
                      rcases hrs : lx.read_constant (c :: rest) e [0x66, 0x61, 0x6C, 0x73, 0x65] .false with _ | ⟨lxs, rs⟩
                      · rw [hrs] at h
                        simp only [Prod.mk.injEq] at h
                        obtain ⟨hlx, hr⟩ := h
                        subst hlx
                        exact ⟨le_refl _, by omega, by intro t ht _; rw [← hr] at ht; simp at ht⟩
                      · rw [hrs] at h
                        simp only [Prod.mk.injEq] at h
                        obtain ⟨hlx, hr⟩ := h
                        subst hlx
                        obtain ⟨p1, p2, -, -, -, -⟩ := read_constant_some (by simp) hrs
                        exact ⟨by omega, by first | (simp [List.length_cons]; omega) | omega,
                          by intro t ht hne; omega⟩
                    · rw [if_neg h66] at h
                      by_cases h6E : c = 0x6E
                      · rw [if_pos h6E] at h
                        rcases hrs : lx.read_constant (c :: rest) e [0x6E, 0x75, 0x6C, 0x6C] .null with _ | ⟨lxs, rs⟩
                        · rw [hrs] at h
                          simp only [Prod.mk.injEq] at h
                          obtain ⟨hlx, hr⟩ := h
                          subst hlx
                          exact ⟨le_refl _, by omega, by intro t ht _; rw [← hr] at ht; simp at ht⟩
                        · rw [hrs] at h
                          simp only [Prod.mk.injEq] at h
                          obtain ⟨hlx, hr⟩ := h
                          subst hlx
                          obtain ⟨p1, p2, -, -, -, -⟩ := read_constant_some (by simp) hrs
                          exact ⟨by omega, by first | (simp [List.length_cons]; omega) | omega,
                            by intro t ht hne; omega⟩
                      · rw [if_neg h6E] at h
                        by_cases hnum : c = 0x2D ∨ (0x30 ≤ c ∧ c ≤ 0x39)
                        · rw [if_pos hnum] at h
                          rcases hrs : lx.read_number (c :: rest) e with _ | ⟨lxs, rs⟩
                          · rw [hrs] at h
                            simp only [Prod.mk.injEq] at h
                            obtain ⟨hlx, hr⟩ := h
                            subst hlx
                            exact ⟨le_refl _, by omega, by intro t ht _; rw [← hr] at ht; simp at ht⟩
                          · rw [hrs] at h
                            simp only [Prod.mk.injEq] at h
                            obtain ⟨hlx, hr⟩ := h
                            subst hlx
                            obtain ⟨p1, p2, -, -, -, -⟩ := read_number_some hrs
                            exact ⟨by omega, by first | (simp [List.length_cons]; omega) | omega,
                              by intro t ht hne; omega⟩
                        · rw [if_neg hnum] at h
                          simp only [Prod.mk.injEq] at h
                          obtain ⟨hlx, hr⟩ := h
                          rw [← hlx]
                          refine ⟨?_, ?_, by intro t ht hne; first | (simp; omega) | simp | omega⟩ <;>
                            first | (simp [List.length_cons]; omega) | simp [List.length_cons] | simp | omega

theorem readTokenDispatch_some {lx lx' : JsonLexer} {buf : List Byte} {e : Bool}
    {r : Option (Except SyntaxError JsonToken)}
    (h : lx.readTokenDispatch buf e = (lx', r)) :
    lx.file_offset ≤ lx'.file_offset ∧ lx'.file_offset ≤ lx.file_offset + buf.length ∧
    (∀ t, r = some (.ok t) → t ≠ .eof → lx.file_offset < lx'.file_offset) := by
  unfold JsonLexer.readTokenDispatch at h
  rcases hws : skipWsGo e lx 0 buf with ⟨lx2, i⟩ | lx2
  · rw [hws] at h
    simp only [] at h
    obtain ⟨hoff, -, hi, -, -⟩ := skipWsGo_done hws
    obtain ⟨q1, q2, q3⟩ := tokenAfterWs_some h
    simp [List.length_drop] at q1 q2
    refine ⟨by omega, by omega, ?_⟩
    intro t ht hne
    have := q3 t ht hne
    simp at this
    omega
  · rw [hws] at h
    simp only [Prod.mk.injEq] at h
    obtain ⟨hlx, hr⟩ := h
    obtain ⟨hle, hub, -, -⟩ := skipWsGo_needMore hws
    rw [← hlx]
    exact ⟨hle, by omega, by intro t ht _; rw [← hr] at ht; simp at ht⟩

theorem read_next_token_some {lx lx' : JsonLexer} {buf : List Byte} {e : Bool}
    {r : Option (Except SyntaxError JsonToken)}
    (h : lx.read_next_token buf e = (lx', r)) :
    lx.file_offset ≤ lx'.file_offset ∧ lx'.file_offset ≤ lx.file_offset + buf.length ∧
    (∀ t, r = some (.ok t) → t ≠ .eof → lx.file_offset < lx'.file_offset) := by
  unfold JsonLexer.read_next_token at h
  by_cases hs : lx.is_start = true
  · rw [if_pos hs] at h
    by_cases hsm : buf.length < 3 ∧ (!e) = true
    · rw [if_pos hsm] at h
      simp only [Prod.mk.injEq] at h
      obtain ⟨hlx, hr⟩ := h
      subst hlx
      exact ⟨le_refl _, by omega, by intro t ht _; rw [← hr] at ht; simp at ht⟩
    · rw [if_neg hsm] at h
      by_cases hbom : buf.take 3 = [0xEF, 0xBB, 0xBF]
      · rw [if_pos hbom] at h
        simp only [] at h
        have hblen : 3 ≤ buf.length := by
          have := congrArg List.length hbom
          simp [List.length_take] at this
          omega
        obtain ⟨q1, q2, q3⟩ := readTokenDispatch_some h
        simp [List.length_drop] at q1 q2
        refine ⟨by omega, by omega, ?_⟩
        intro t ht hne
        have := q3 t ht hne
        simp at this
        omega
      · rw [if_neg hbom] at h
        simp only [] at h
        obtain ⟨q1, q2, q3⟩ := readTokenDispatch_some h
        simp at q1 q2
        refine ⟨by omega, by omega, ?_⟩
        intro t ht hne
        have := q3 t ht hne
        simp at this
        omega
  · rw [if_neg hs] at h
    simp only [] at h
    exact readTokenDispatch_some h

theorem apply_new_token_silent_reader {r r' : LowLevelJsonReader} {tok : JsonToken}
    (h : r.apply_new_token tok = (r', none, none)) :
    (tok = .comma ∨ tok = .colon) ∧ r'.lexer = r.lexer := by
  unfold LowLevelJsonReader.apply_new_token at h
  simp only [Prod.mk.injEq] at h
  obtain ⟨hr, he, hn⟩ := h
  constructor
  · have hx : applyNewTokenAux r.max_state_stack_size r.state_stack r.element_read tok
        = ((applyNewTokenAux r.max_state_stack_size r.state_stack r.element_read tok).1,
           (applyNewTokenAux r.max_state_stack_size r.state_stack r.element_read tok).2.1,
           none, none) := by
      rw [← he, ← hn]
    exact apply_new_token_silent hx
  · rw [← hr]

/-- The result type of `LowLevelJsonReader::read_next_event`. -/
structure LowLevelJsonReaderResult where
  consumed_bytes : Nat
  event : Option (Except SyntaxError JsonEvent)
deriving Repr

/-- The `while let` loop of `LowLevelJsonReader::read_next_event`: reads
tokens from the part of the buffer past the already consumed bytes until a
token yields an event or an error, or the lexer needs more bytes. `start`
is the file offset at which the buffer was handed over. -/
def readEventLoop (is_ending : Bool) (input_buffer : List Byte) (start : Nat)
    (r : LowLevelJsonReader) : LowLevelJsonReader × LowLevelJsonReaderResult :=
  match ht : r.lexer.read_next_token
      (input_buffer.drop (r.lexer.file_offset - start)) is_ending with
  | (lx, none) =>
      if is_ending then
        ({ r with lexer := lx, buffered_event := some JsonEvent.eof },
         { consumed_bytes := lx.file_offset - start,
           event := some (.error (lx.mkSyntaxError lx.file_offset (lx.file_offset + 1)
             "Unexpected end of file")) })
      else
        ({ r with lexer := lx },
         { consumed_bytes := lx.file_offset - start, event := none })
  | (lx, some (.error er)) =>
      ({ r with lexer := lx },
       { consumed_bytes := lx.file_offset - start, event := some (.error er) })
  | (lx, some (.ok token)) =>
      match ha : ({ r with lexer := lx } : LowLevelJsonReader).apply_new_token token with
      | (r2, event, some emsg) =>
          ({ r2 with buffered_event := event },
           { consumed_bytes := r2.lexer.file_offset - start,
             event := some (.error (r2.lexer.mkSyntaxError r2.lexer.file_start_of_last_token
               r2.lexer.file_offset emsg)) })
      | (r2, some event, none) =>
          (r2, { consumed_bytes := r2.lexer.file_offset - start, event := some (.ok event) })
      | (r2, none, none) => readEventLoop is_ending input_buffer start r2
termination_by start + input_buffer.length + 1 - r.lexer.file_offset
decreasing_by
  obtain ⟨htok, hlex⟩ := apply_new_token_silent_reader ha
  obtain ⟨q1, q2, q3⟩ := read_next_token_some ht
  have hstrict := q3 token rfl (by rcases htok with h | h <;> subst h <;> simp)
  rw [List.length_drop] at q2
  simp only [hlex]
  omega

/-- `LowLevelJsonReader::read_next_event`. -/
def LowLevelJsonReader.read_next_event (r : LowLevelJsonReader) (input_buffer : List Byte)
    (is_ending : Bool) : LowLevelJsonReader × LowLevelJsonReaderResult :=
  match r.buffered_event with
  | some event =>
      ({ r with buffered_event := none },
       { consumed_bytes := 0, event := some (.ok event) })
  | none => readEventLoop is_ending input_buffer r.lexer.file_offset r
